import Mathlib

/-!
Verification of the `crypt` package (asymmetric key management and
authenticated encryption framing).

Bytes are modeled as `List Nat` (each entry intended to be `< 256`); Go's
fixed-size arrays become lists with explicit length hypotheses.  The external
collaborators declared out of scope by the design document (the base-58 text
codec and the NaCl `box` primitive) are handled as follows:

* the base-58 codec is embedded concretely, following the standard algorithm
  the package's codec dependency implements (leading zero bytes become leading
  `'1'` characters, the remaining bytes are the big-endian base-58 digits of
  the corresponding big integer);
* the NaCl `box` seal/open pair is replaced by an executable idealized model
  of public-key authenticated encryption: sealing tags the message encoding
  with the Diffie-Hellman shared secret and the nonce, and opening succeeds
  exactly on untampered outputs of sealing under the same shared secret and
  nonce.  The Diffie-Hellman structure (`derivePub`, `sharedSecret`) uses
  modular exponentiation over small parameters, which has the same algebraic
  commutativity the real primitive relies on.

Randomness (key generation, nonce generation) is modeled by passing the drawn
random bytes as explicit parameters.
-/

namespace Crypt

/-! ## Little-endian digit machinery (kernel-computable) -/

/-- Value of a little-endian digit list in base `b`. -/
def ofDigitsLE (b : Nat) : List Nat → Nat
  | [] => 0
  | d :: ds => d + b * ofDigitsLE b ds

/-- Fuel-driven little-endian digits of `n` in base `b` (structural recursion,
so that the kernel can evaluate it). -/
def digitsFuel (b : Nat) : Nat → Nat → List Nat
  | 0, _ => []
  | _ + 1, 0 => []
  | fuel + 1, n + 1 => (n + 1) % b :: digitsFuel b fuel ((n + 1) / b)

/-- Little-endian digits of `n` in base `b`; agrees with `Nat.digits` for
`2 ≤ b` (see `natDigits_eq_digits`). -/
def natDigits (b n : Nat) : List Nat := digitsFuel b n n

/-- A big-endian byte list read as a natural number (the big-integer
accumulation both codecs perform). -/
def bytesToNat (bs : List Nat) : Nat := ofDigitsLE 256 bs.reverse

/-- Minimal big-endian byte representation of a natural number. -/
def natToBytesBE (n : Nat) : List Nat := (natDigits 256 n).reverse

theorem ofDigitsLE_eq_ofDigits (b : Nat) (l : List Nat) :
    ofDigitsLE b l = Nat.ofDigits b l := by
  induction l with
  | nil => rfl
  | cons d ds ih => rw [ofDigitsLE, Nat.ofDigits_cons, ih]

theorem digitsFuel_eq_digits (b : Nat) (hb : 1 < b) :
    ∀ fuel n, n ≤ fuel → digitsFuel b fuel n = Nat.digits b n := by
  intro fuel
  induction fuel with
  | zero => intro n hn; interval_cases n; simp [digitsFuel]
  | succ f ih =>
    intro n hn
    match n with
    | 0 => simp [digitsFuel]
    | m + 1 =>
      rw [digitsFuel, Nat.digits_def' hb (Nat.succ_pos m)]
      congr 1
      exact ih _ (Nat.le_of_lt_succ (Nat.lt_of_lt_of_le
        (Nat.div_lt_self (Nat.succ_pos m) hb) hn))

theorem natDigits_eq_digits (b n : Nat) (hb : 1 < b) :
    natDigits b n = Nat.digits b n :=
  digitsFuel_eq_digits b hb n n (Nat.le_refl n)

theorem bytesToNat_eq (bs : List Nat) :
    bytesToNat bs = Nat.ofDigits 256 bs.reverse :=
  ofDigitsLE_eq_ofDigits 256 bs.reverse

theorem natToBytesBE_eq (n : Nat) :
    natToBytesBE n = (Nat.digits 256 n).reverse := by
  rw [natToBytesBE, natDigits_eq_digits 256 n (by norm_num)]

/-! ## Base-58 text codec (external collaborator, embedded concretely) -/

/-- The base-58 alphabet used by the codec. -/
def b58Alphabet : List Char :=
  "123456789ABCDEFGHJKLMNPQRSTUVWXYZabcdefghijkmnopqrstuvwxyz".toList

/-- The character of a base-58 digit. -/
def b58Char (d : Nat) : Char := b58Alphabet.getD d '1'

/-- The base-58 digit of a character, `none` for characters outside the
alphabet. -/
def b58Index (c : Char) : Option Nat := b58Alphabet.findIdx? (· == c)

/-- Number of leading zero bytes. -/
def leadingZeros (bs : List Nat) : Nat := (bs.takeWhile (· == 0)).length

/-- Base-58 encoding: one `'1'` per leading zero byte, then the big-endian
base-58 digits of the remaining bytes read as a big integer. -/
def base58Encode (bs : List Nat) : String :=
  String.mk (List.replicate (leadingZeros bs) '1'
    ++ ((natDigits 58 (bytesToNat (bs.drop (leadingZeros bs)))).reverse.map b58Char))

/-- Character-wise decoding to base-58 digits; fails on any character outside
the alphabet. -/
def decodeChars : List Char → Option (List Nat)
  | [] => some []
  | c :: cs =>
    match b58Index c, decodeChars cs with
    | some d, some ds => some (d :: ds)
    | _, _ => none

/-- Big-integer accumulation of big-endian base-58 digits. -/
def b58Value (ds : List Nat) : Nat := ds.foldl (fun a d => a * 58 + d) 0

/-- Base-58 decoding (on the character list): empty input is an error, any
character outside the alphabet is an error; otherwise one zero byte per
leading `'1'` followed by the minimal big-endian bytes of the value. -/
def base58DecodeL (cs : List Char) : Option (List Nat) :=
  if cs.isEmpty then none
  else
    match decodeChars cs with
    | none => none
    | some ds =>
      some (List.replicate ((cs.takeWhile (· == '1')).length) 0
        ++ natToBytesBE (b58Value ds))

/-- Base-58 decoding of a string. -/
def base58Decode (s : String) : Option (List Nat) := base58DecodeL s.toList

/-! ## Key sizes, key parsing and serialization (src/crypt.go) -/

/-- `KeySize` — the size of an encryption key in bytes. -/
def KeySize : Nat := 32

/-- `NonceSize` — the size of a nonce in bytes. -/
def NonceSize : Nat := 24

/-- The two failure kinds of the key parsers: the base-58 decode error
propagated by `NewPrivateKey`/`NewPublicKey`, and their own
`errors.New("invalid key")` length failure. -/
inductive KeyError where
  | invalidEncoding : KeyError
  | invalidKeyLength : KeyError
deriving DecidableEq, Repr

/-- `NewPrivateKey` — decode a base-58 string; require exactly `KeySize`
decoded bytes; copy them into the zero-initialized 64-byte key (so the public
half, bytes 32–63, stays zero). -/
def NewPrivateKey (s : String) : Except KeyError (List Nat) :=
  match base58Decode s with
  | none => .error .invalidEncoding
  | some bs =>
    if bs.length = KeySize then .ok (bs ++ List.replicate KeySize 0)
    else .error .invalidKeyLength

/-- `NewPublicKey` — decode a base-58 string; require exactly `KeySize`
decoded bytes. -/
def NewPublicKey (s : String) : Except KeyError (List Nat) :=
  match base58Decode s with
  | none => .error .invalidEncoding
  | some bs =>
    if bs.length = KeySize then .ok bs
    else .error .invalidKeyLength

/-- `PrivateKey.String` — base-58 encoding of the full 64-byte key. -/
def privateKeyString (key : List Nat) : String := base58Encode key

/-- `PublicKey.String` — base-58 encoding of the 32-byte key. -/
def publicKeyString (key : List Nat) : String := base58Encode key

/-! ## Diffie-Hellman model for the key pair structure -/

/-- Modulus of the Diffie-Hellman model of the curve group. -/
def dhP : Nat := 251

/-- Generator of the Diffie-Hellman model of the curve group. -/
def dhG : Nat := 7

/-- Model of the public key derived from a 32-byte secret scalar
(`box.GenerateKey` computes the scalar-base multiplication; here modular
exponentiation of the generator), padded to a 32-byte value. -/
def derivePub (sk : List Nat) : List Nat :=
  List.replicate (KeySize - (natDigits 256 (dhG ^ bytesToNat sk % dhP)).length) 0
    ++ natToBytesBE (dhG ^ bytesToNat sk % dhP)

/-- Model of the Diffie-Hellman shared secret of one's own secret scalar and
the peer's public key. -/
def sharedSecret (priv pub : List Nat) : Nat :=
  bytesToNat pub ^ bytesToNat priv % dhP

/-! ## Idealized NaCl box model (external collaborator) -/

/-- Injective encoding of the message bytes inside the sealed ciphertext. -/
def msgEnc (m : List Nat) : List Nat := m.map (· + 1)

/-- Inverse of `msgEnc` on its image. -/
def msgDec (t : List Nat) : List Nat := t.map (· - 1)

/-- Model of `box.Seal(nil, m, &nonce, &pub, &priv)`: the sealed ciphertext
binds the shared secret, the nonce and the (duplicated, hence
tamper-evident) message encoding. -/
def boxSeal (m nonce pub priv : List Nat) : List Nat :=
  sharedSecret priv pub :: (nonce ++ (msgEnc m ++ msgEnc m))

/-- Model of `box.Open(nil, c, &nonce, &pub, &priv)`: extract the candidate
message and accept exactly when `c` is the seal of that message under the
receiver-side shared secret and nonce. -/
def boxOpen (c nonce pub priv : List Nat) : Option (List Nat) :=
  if boxSeal (msgDec ((c.drop (1 + nonce.length)).take
      ((c.drop (1 + nonce.length)).length / 2))) nonce pub priv = c
  then some (msgDec ((c.drop (1 + nonce.length)).take
      ((c.drop (1 + nonce.length)).length / 2)))
  else none

/-! ## Key generation, encryption, decryption (src/crypt.go) -/

/-- `Generate` — draw a fresh key pair (the 32 random bytes the generator
consumes are the explicit parameter `sk`) and pack secret half then public
half into the 64-byte private key. -/
def Generate (sk : List Nat) : List Nat := sk ++ derivePub sk

/-- `PrivateKey.PublicKey` — extract the cached public half (bytes 32–63). -/
def publicKey (key : List Nat) : List Nat := (key.drop KeySize).take KeySize

/-- The three failure kinds of `Decrypt` (its three `fmt.Errorf` messages):
`"expected public key"`, `"expected nonce"`, `"nacl box open failed"`. -/
inductive DecryptError where
  | expectedPublicKey : DecryptError
  | expectedNonce : DecryptError
  | openFailed : DecryptError
deriving DecidableEq, Repr

/-- `PrivateKey.Decrypt` — parse `[senderPublicKey:32][nonce:24][sealed:rest]`
and open the sealed ciphertext with one's own secret half and the parsed
sender public key.  Returns the Go triple `(PublicKey, []byte, error)`; `none`
plaintext stands for Go's `nil` slice. -/
def Decrypt (key data : List Nat) :
    List Nat × Option (List Nat) × Option DecryptError :=
  let priv := key.take KeySize
  if data.length < KeySize then
    (List.replicate KeySize 0, none, some .expectedPublicKey)
  else
    let pub := data.take KeySize
    let rest := data.drop KeySize
    if rest.length < NonceSize then
      (pub, none, some .expectedNonce)
    else
      let nonce := rest.take NonceSize
      let sealed := rest.drop NonceSize
      match boxOpen sealed nonce pub priv with
      | some opened => (pub, some opened, none)
      | none => (pub, none, some .openFailed)

/-- `PrivateKey.Encrypt` — seal `data` with one's own secret half for the
peer's public key under a fresh nonce (the randomly generated nonce is the
explicit parameter `nonce`), and emit
`[own public half:32][nonce:24][sealed ciphertext]`. -/
def Encrypt (key peersPublicKey nonce data : List Nat) : List Nat :=
  let priv := key.take KeySize
  let sealed := boxSeal data nonce peersPublicKey priv
  key.drop KeySize ++ (nonce ++ sealed)

/-- A byte of `l` at position `i` with one bit (bit `k`) flipped. -/
def flipByteAt (l : List Nat) (i k : Nat) : List Nat :=
  l.set i (l.getD i 0 ^^^ 2 ^ k)

/-! ## Structural facts about the key material -/

theorem ofDigits_replicate_zero (b : Nat) : ∀ k, Nat.ofDigits b (List.replicate k 0) = 0
  | 0 => rfl
  | k + 1 => by
    rw [List.replicate_succ, Nat.ofDigits_cons, ofDigits_replicate_zero b k]
    simp

theorem bytesToNat_pad (k v : Nat) :
    bytesToNat (List.replicate k 0 ++ natToBytesBE v) = v := by
  rw [bytesToNat_eq, natToBytesBE_eq, List.reverse_append, List.reverse_replicate,
    List.reverse_reverse, Nat.ofDigits_append, Nat.ofDigits_digits,
    ofDigits_replicate_zero]
  simp

theorem natDigits_length_le (v : Nat) (hv : v < 256) :
    (natDigits 256 v).length ≤ 1 := by
  rw [natDigits_eq_digits 256 v (by norm_num)]
  rcases Nat.eq_zero_or_pos v with h | h
  · subst h; simp
  · rw [Nat.digits_of_lt 256 v (Nat.pos_iff_ne_zero.mp h) hv]; simp

theorem dh_val_lt (sk : List Nat) : dhG ^ bytesToNat sk % dhP < 256 :=
  Nat.lt_trans (Nat.mod_lt _ (by norm_num [dhP])) (by norm_num [dhP])

theorem derivePub_length (sk : List Nat) : (derivePub sk).length = KeySize := by
  have h := natDigits_length_le (dhG ^ bytesToNat sk % dhP) (dh_val_lt sk)
  rw [derivePub, List.length_append, List.length_replicate, natToBytesBE,
    List.length_reverse, Nat.sub_add_cancel]
  exact Nat.le_trans h (by norm_num [KeySize])

theorem bytesToNat_derivePub (sk : List Nat) :
    bytesToNat (derivePub sk) = dhG ^ bytesToNat sk % dhP :=
  bytesToNat_pad _ _

theorem derivePub_bytes (sk : List Nat) : ∀ b ∈ derivePub sk, b < 256 := by
  intro b hb
  rw [derivePub, List.mem_append] at hb
  rcases hb with hb | hb
  · rw [List.eq_of_mem_replicate hb]; norm_num
  · rw [natToBytesBE_eq, List.mem_reverse] at hb
    exact Nat.digits_lt_base (by norm_num) hb

theorem sharedSecret_comm (skA skB : List Nat) :
    sharedSecret skB (derivePub skA) = sharedSecret skA (derivePub skB) := by
  rw [sharedSecret, sharedSecret, bytesToNat_derivePub, bytesToNat_derivePub,
    ← Nat.pow_mod, ← Nat.pow_mod, ← Nat.pow_mul, ← Nat.pow_mul, Nat.mul_comm]

theorem Generate_length (sk : List Nat) (h : sk.length = KeySize) :
    (Generate sk).length = 2 * KeySize := by
  rw [Generate, List.length_append, h, derivePub_length]
  omega

theorem Generate_bytes (sk : List Nat) (hb : ∀ b ∈ sk, b < 256) :
    ∀ b ∈ Generate sk, b < 256 := by
  intro b hmem
  rw [Generate, List.mem_append] at hmem
  exact hmem.elim (hb b) (derivePub_bytes sk b)

theorem take_key_Generate (sk : List Nat) (h : sk.length = KeySize) :
    (Generate sk).take KeySize = sk := by
  rw [Generate, ← h, List.take_left]

theorem publicKey_Generate (sk : List Nat) (h : sk.length = KeySize) :
    publicKey (Generate sk) = derivePub sk := by
  have hd : List.drop KeySize (sk ++ derivePub sk) = derivePub sk := by
    rw [← h]; exact List.drop_left _ _
  rw [publicKey, Generate, hd, ← derivePub_length sk, List.take_length]

/-! ## Facts about the idealized box model -/

theorem msgDec_msgEnc (m : List Nat) : msgDec (msgEnc m) = m := by
  rw [msgDec, msgEnc, List.map_map]
  have hcomp : ((fun x => x - 1) ∘ fun x => x + 1) = fun x : Nat => x := by
    funext x; simp
  rw [hcomp, List.map_id']

theorem boxSeal_append (m nonce pub priv : List Nat) :
    boxSeal m nonce pub priv
      = (sharedSecret priv pub :: nonce) ++ (msgEnc m ++ msgEnc m) := by
  simp [boxSeal]

theorem boxOpen_boxSeal (m nonce pub priv pub2 priv2 : List Nat)
    (hsh : sharedSecret priv2 pub2 = sharedSecret priv pub) :
    boxOpen (boxSeal m nonce pub priv) nonce pub2 priv2 = some m := by
  have hdrop : (boxSeal m nonce pub priv).drop (1 + nonce.length)
      = msgEnc m ++ msgEnc m := by
    rw [boxSeal_append]
    have h1 : 1 + nonce.length = (sharedSecret priv pub :: nonce).length := by
      simp [Nat.add_comm]
    rw [h1, List.drop_left]
  have hlen : (msgEnc m ++ msgEnc m).length / 2 = (msgEnc m).length := by
    rw [List.length_append]; omega
  unfold boxOpen
  rw [hdrop, hlen, List.take_left, msgDec_msgEnc,
    if_pos (by rw [boxSeal_append, boxSeal_append, hsh])]

theorem boxOpen_sound (c nonce pub priv m : List Nat)
    (h : boxOpen c nonce pub priv = some m) :
    boxSeal m nonce pub priv = c := by
  unfold boxOpen at h
  split at h
  · rename_i hcond
    rw [Option.some.injEq] at h
    rw [h] at hcond
    exact hcond
  · exact absurd h (by simp)

theorem boxOpen_none_of_not_sealed (c nonce pub priv : List Nat)
    (h : ∀ m, boxSeal m nonce pub priv ≠ c) :
    boxOpen c nonce pub priv = none := by
  unfold boxOpen
  rw [if_neg (h _)]

theorem getD_set_self (l : List Nat) (j w : Nat) (hj : j < l.length) :
    (l.set j w).getD j 0 = w := by
  rw [List.getD_eq_getElem _ 0 (by rw [List.length_set]; exact hj)]
  exact List.getElem_set_self _

theorem getD_append_left (l1 l2 : List Nat) (j : Nat) (hj : j < l1.length) :
    (l1 ++ l2).getD j 0 = l1.getD j 0 := by
  rw [List.getD_eq_getElem _ 0 (by rw [List.length_append]; omega),
    List.getD_eq_getElem _ 0 hj]
  exact List.getElem_append_left hj

theorem getD_append_right (l1 l2 : List Nat) (j : Nat) (hj1 : l1.length ≤ j)
    (hj2 : j < l1.length + l2.length) :
    (l1 ++ l2).getD j 0 = l2.getD (j - l1.length) 0 := by
  rw [List.getD_eq_getElem _ 0 (by rw [List.length_append]; omega),
    List.getD_eq_getElem _ 0 (by omega)]
  exact List.getElem_append_right hj1

theorem dup_ne_dup_set (e e2 : List Nat) (j w : Nat) (hlen : e2.length = e.length)
    (hj : j < e.length + e.length) (hw : w ≠ (e ++ e).getD j 0) :
    e2 ++ e2 ≠ (e ++ e).set j w := by
  intro heq
  rcases Nat.lt_or_ge j e.length with hj1 | hj1
  · rw [List.set_append, if_pos hj1] at heq
    obtain ⟨h1, h2⟩ := List.append_inj heq (by rw [hlen, List.length_set])
    rw [h2] at h1
    apply hw
    rw [getD_append_left _ _ _ hj1, h1, getD_set_self _ _ _ hj1]
  · rw [List.set_append, if_neg (by omega)] at heq
    obtain ⟨h1, h2⟩ := List.append_inj heq hlen
    rw [h1] at h2
    apply hw
    rw [getD_append_right _ _ _ hj1 hj]
    have hc := congrArg (fun l => List.getD l (j - e.length) 0) h2
    simp only at hc
    rw [hc, getD_set_self _ _ _ (by omega)]

theorem boxSeal_ne_set (m m2 nonce pub priv pub2 priv2 : List Nat) (i w : Nat)
    (hsh : sharedSecret priv2 pub2 = sharedSecret priv pub)
    (hi : i < (boxSeal m nonce pub priv).length)
    (hw : w ≠ (boxSeal m nonce pub priv).getD i 0) :
    boxSeal m2 nonce pub2 priv2 ≠ (boxSeal m nonce pub priv).set i w := by
  intro heq
  rw [boxSeal_append, boxSeal_append, hsh] at heq
  set sh := sharedSecret priv pub with hshdef
  set e := msgEnc m with hedef
  set e2 := msgEnc m2 with he2def
  rw [boxSeal_append] at hi hw
  rw [← hedef, ← hshdef] at hi hw
  have hpl : (sh :: nonce).length = nonce.length + 1 := by simp
  have hitot : i < (sh :: nonce).length + (e ++ e).length := by
    rw [← List.length_append]; exact hi
  have hlen2 : e2.length = e.length := by
    have hl := congrArg List.length heq
    simp only [List.length_append, List.length_set, List.length_cons] at hl
    omega
  rcases Nat.lt_or_ge i (nonce.length + 1) with hi1 | hi1
  · rw [List.set_append, if_pos (by rw [hpl]; exact hi1)] at heq
    obtain ⟨h1, h2⟩ := List.append_inj heq (by rw [List.length_set])
    apply hw
    rw [getD_append_left _ _ _ (by rw [hpl]; exact hi1), h1,
      getD_set_self _ _ _ (by rw [hpl]; exact hi1)]
  · rw [List.set_append, if_neg (by rw [hpl]; omega)] at heq
    obtain ⟨h1, h2⟩ := List.append_inj heq rfl
    refine dup_ne_dup_set e e2 (i - (sh :: nonce).length) w hlen2 ?_ ?_ h2
    · have hee : (e ++ e).length = e.length + e.length := List.length_append _ _
      omega
    · intro hweq
      apply hw
      rw [getD_append_right _ _ _ (by rw [hpl]; exact hi1) hitot]
      exact hweq

theorem boxOpen_tamper (m nonce pub priv pub2 priv2 : List Nat) (i w : Nat)
    (hsh : sharedSecret priv2 pub2 = sharedSecret priv pub)
    (hi : i < (boxSeal m nonce pub priv).length)
    (hw : w ≠ (boxSeal m nonce pub priv).getD i 0) :
    boxOpen ((boxSeal m nonce pub priv).set i w) nonce pub2 priv2 = none :=
  boxOpen_none_of_not_sealed _ _ _ _
    (fun m2 => boxSeal_ne_set m m2 nonce pub priv pub2 priv2 i w hsh hi hw)

theorem boxOpen_ne_shared (m nonce pub priv pub2 priv2 : List Nat)
    (hsh : sharedSecret priv2 pub2 ≠ sharedSecret priv pub) :
    boxOpen (boxSeal m nonce pub priv) nonce pub2 priv2 = none := by
  apply boxOpen_none_of_not_sealed
  intro m2 h
  apply hsh
  have hh := congrArg List.head? h
  simpa [boxSeal] using hh

/-! ## Facts about the base-58 codec -/

theorem b58Index_b58Char : ∀ d, d < 58 → b58Index (b58Char d) = some d := by decide

theorem b58Char_ne_one : ∀ d, d < 58 → d ≠ 0 → b58Char d ≠ '1' := by decide

theorem b58Index_one : b58Index '1' = some 0 := by decide

theorem toList_mk (l : List Char) : (String.mk l).toList = l := rfl

theorem decodeChars_append (l1 l2 : List Char) (d1 d2 : List Nat)
    (h1 : decodeChars l1 = some d1) (h2 : decodeChars l2 = some d2) :
    decodeChars (l1 ++ l2) = some (d1 ++ d2) := by
  induction l1 generalizing d1 with
  | nil =>
    rw [decodeChars, Option.some.injEq] at h1
    subst h1
    simpa using h2
  | cons c cs ih =>
    rw [decodeChars] at h1
    cases hbc : b58Index c with
    | none => rw [hbc] at h1; exact absurd h1 (by simp)
    | some d =>
      cases hdc : decodeChars cs with
      | none => rw [hbc, hdc] at h1; exact absurd h1 (by simp)
      | some ds =>
        rw [hbc, hdc, Option.some.injEq] at h1
        subst h1
        rw [List.cons_append, decodeChars, hbc, ih ds hdc]
        rfl

theorem decodeChars_replicate_one (z : Nat) :
    decodeChars (List.replicate z '1') = some (List.replicate z 0) := by
  induction z with
  | zero => rfl
  | succ n ih =>
    rw [List.replicate_succ, List.replicate_succ, decodeChars, b58Index_one, ih]

theorem decodeChars_map_b58Char (ds : List Nat) (h : ∀ d ∈ ds, d < 58) :
    decodeChars (ds.map b58Char) = some ds := by
  induction ds with
  | nil => rfl
  | cons d t ih =>
    rw [List.map_cons, decodeChars, b58Index_b58Char d (h d (List.mem_cons_self d t)),
      ih (fun x hx => h x (List.mem_cons_of_mem d hx))]

theorem takeWhile_replicate_append (z : Nat) (l : List Char)
    (hl : l = [] ∨ ∃ c t, l = c :: t ∧ c ≠ '1') :
    ((List.replicate z '1') ++ l).takeWhile (· == '1') = List.replicate z '1' := by
  induction z with
  | zero =>
    rw [List.replicate_zero, List.nil_append]
    rcases hl with rfl | ⟨c, t, rfl, hc⟩
    · rfl
    · rw [List.takeWhile_cons, if_neg (by simpa using hc)]
  | succ n ih =>
    rw [List.replicate_succ, List.cons_append, List.takeWhile_cons,
      if_pos (by simp), ih]

theorem drop_length_takeWhile {α : Type} (p : α → Bool) (l : List α) :
    l.drop (l.takeWhile p).length = l.dropWhile p := by
  induction l with
  | nil => rfl
  | cons x xs ih =>
    rw [List.takeWhile_cons, List.dropWhile_cons]
    by_cases h : p x = true
    · rw [if_pos h, if_pos h, List.length_cons, List.drop_succ_cons, ih]
    · rw [if_neg h, if_neg h, List.length_nil, List.drop_zero]

theorem dropWhile_head_not {α : Type} (p : α → Bool) (l : List α) (a : α) (t : List α)
    (h : l.dropWhile p = a :: t) : p a = false := by
  induction l with
  | nil => exact absurd h (by simp)
  | cons x xs ih =>
    rw [List.dropWhile_cons] at h
    by_cases hx : p x = true
    · rw [if_pos hx] at h; exact ih h
    · rw [if_neg hx, List.cons.injEq] at h
      rw [← h.1]
      cases hpx : p x with
      | false => rfl
      | true => exact absurd hpx hx

theorem takeWhile_eq_replicate_zero (l : List Nat) :
    l.takeWhile (· == 0) = List.replicate (leadingZeros l) 0 := by
  rw [List.eq_replicate_iff]
  refine ⟨rfl, ?_⟩
  intro b hb
  have hmem := List.mem_takeWhile_imp hb
  simpa using hmem

theorem foldl58_replicate_zero (z : Nat) :
    (List.replicate z 0).foldl (fun a d => a * 58 + d) 0 = 0 := by
  induction z with
  | zero => rfl
  | succ n ih => rw [List.replicate_succ, List.foldl_cons]; simpa using ih

theorem foldl58_eq_ofDigits (l : List Nat) :
    ∀ a : Nat, l.foldl (fun x d => x * 58 + d) a
      = Nat.ofDigits 58 l.reverse + a * 58 ^ l.length := by
  induction l with
  | nil => intro a; simp
  | cons d t ih =>
    intro a
    rw [List.foldl_cons, ih, List.reverse_cons, Nat.ofDigits_append,
      Nat.ofDigits_singleton, List.length_reverse, List.length_cons]
    ring

theorem b58Value_append_zeros (z : Nat) (ds : List Nat) :
    b58Value (List.replicate z 0 ++ ds) = b58Value ds := by
  rw [b58Value, b58Value, List.foldl_append, foldl58_replicate_zero]

theorem b58Value_reverse_digits (n : Nat) :
    b58Value (Nat.digits 58 n).reverse = n := by
  rw [b58Value, foldl58_eq_ofDigits, List.reverse_reverse, Nat.ofDigits_digits]
  simp

theorem takeWhile_replicate_one (z : Nat) :
    (List.replicate z '1').takeWhile (· == '1') = List.replicate z '1' := by
  have h := takeWhile_replicate_append z [] (Or.inl rfl)
  rwa [List.append_nil] at h

/-- The base-58 codec round-trips on every nonempty byte list. -/
theorem base58_roundtrip (bs : List Nat) (hne : bs ≠ []) (hb : ∀ b ∈ bs, b < 256) :
    base58Decode (base58Encode bs) = some bs := by
  have hz : bs.takeWhile (· == 0) = List.replicate (leadingZeros bs) 0 :=
    takeWhile_eq_replicate_zero bs
  have hdropz : bs.drop (leadingZeros bs) = bs.dropWhile (· == 0) := by
    rw [leadingZeros, drop_length_takeWhile]
  have hsplit : List.replicate (leadingZeros bs) 0 ++ bs.dropWhile (· == 0) = bs := by
    rw [← hz]
    exact List.takeWhile_append_dropWhile _ _
  rw [base58Decode, base58Encode, toList_mk, hdropz]
  cases hrest : bs.dropWhile (· == 0) with
  | nil =>
    have hz1 : bs = List.replicate (leadingZeros bs) 0 := by
      conv_lhs => rw [← hsplit]
      rw [hrest, List.append_nil]
    have hz0 : leadingZeros bs ≠ 0 := by
      intro h0
      rw [h0] at hz1
      exact hne hz1
    have hdig0 : natDigits 58 (bytesToNat ([] : List Nat)) = [] := rfl
    rw [hdig0, List.reverse_nil, List.map_nil, List.append_nil]
    unfold base58DecodeL
    rw [if_neg (by
      cases hlz : leadingZeros bs with
      | zero => exact absurd hlz hz0
      | succ k => rw [List.replicate_succ]; simp)]
    simp only [decodeChars_replicate_one, takeWhile_replicate_one,
      List.length_replicate]
    have hv0 : b58Value (List.replicate (leadingZeros bs) 0) = 0 := by
      have h := b58Value_append_zeros (leadingZeros bs) []
      rwa [List.append_nil] at h
    rw [hv0]
    have hb0 : natToBytesBE 0 = [] := rfl
    rw [hb0, List.append_nil]
    exact congrArg some hz1.symm
  | cons r rtail =>
    have hr0 : (r == 0) = false := dropWhile_head_not _ bs r rtail hrest
    have hrne : r ≠ 0 := by simpa using hr0
    have hrsub : (r :: rtail) ⊆ bs := by
      rw [← hrest]
      exact (List.dropWhile_sublist _).subset
    have hw1 : ∀ x ∈ (r :: rtail).reverse, x < 256 := by
      intro x hx
      rw [List.mem_reverse] at hx
      exact hb x (hrsub hx)
    have hrevne : (r :: rtail).reverse ≠ [] := by simp
    have hw2 : ∀ h : (r :: rtail).reverse ≠ [], ((r :: rtail).reverse).getLast h ≠ 0 := by
      intro h
      rw [List.getLast_reverse]
      exact hrne
    have hdig : Nat.digits 256 (bytesToNat (r :: rtail)) = (r :: rtail).reverse := by
      rw [bytesToNat_eq]
      exact Nat.digits_ofDigits 256 (by norm_num) _ hw1 hw2
    have hn0 : bytesToNat (r :: rtail) ≠ 0 :=
      Nat.digits_ne_nil_iff_ne_zero.mp (by rw [hdig]; exact hrevne)
    set n := bytesToNat (r :: rtail) with hndef
    have hds58 : natDigits 58 n = Nat.digits 58 n := natDigits_eq_digits 58 n (by norm_num)
    have hne58 : Nat.digits 58 n ≠ [] := Nat.digits_ne_nil_iff_ne_zero.mpr hn0
    have hlt58 : ∀ d ∈ (Nat.digits 58 n).reverse, d < 58 := by
      intro d hd
      rw [List.mem_reverse] at hd
      exact Nat.digits_lt_base (by norm_num) hd
    obtain ⟨a, t58, hat⟩ : ∃ a t, (Nat.digits 58 n).reverse = a :: t := by
      cases hrev : (Nat.digits 58 n).reverse with
      | nil => exact absurd (by simpa using hrev) hne58
      | cons a t => exact ⟨a, t, rfl⟩
    have ha_last : a = (Nat.digits 58 n).getLast hne58 := by
      have hh := List.head?_reverse (Nat.digits 58 n)
      rw [hat, List.getLast?_eq_getLast _ hne58] at hh
      exact Option.some.injEq _ _ ▸ (by simpa using hh)
    have haz : a ≠ 0 := by
      rw [ha_last]
      exact Nat.getLast_digit_ne_zero 58 hn0
    have halt : a < 58 := hlt58 a (by rw [hat]; exact List.mem_cons_self a t58)
    have hchar : b58Char a ≠ '1' := b58Char_ne_one a halt haz
    rw [hds58, hat, List.map_cons]
    unfold base58DecodeL
    rw [if_neg (by
      cases hlz : leadingZeros bs with
      | zero => simp
      | succ k => rw [List.replicate_succ]; simp)]
    have hdc : decodeChars (List.replicate (leadingZeros bs) '1'
        ++ (b58Char a :: t58.map b58Char)) = some (List.replicate (leadingZeros bs) 0
        ++ (a :: t58)) := by
      refine decodeChars_append _ _ _ _ (decodeChars_replicate_one _) ?_
      have hmc : b58Char a :: t58.map b58Char = (a :: t58).map b58Char := by
        rw [List.map_cons]
      rw [hmc, ← hat]
      exact decodeChars_map_b58Char _ hlt58
    have htw : (List.replicate (leadingZeros bs) '1'
        ++ (b58Char a :: t58.map b58Char)).takeWhile (· == '1')
        = List.replicate (leadingZeros bs) '1' :=
      takeWhile_replicate_append _ _ (Or.inr ⟨b58Char a, t58.map b58Char, rfl, hchar⟩)
    simp only [hdc, htw, List.length_replicate]
    have hval : b58Value (List.replicate (leadingZeros bs) 0 ++ (a :: t58)) = n := by
      rw [b58Value_append_zeros, ← hat, b58Value_reverse_digits]
    rw [hval]
    have hbytes : natToBytesBE n = r :: rtail := by
      rw [natToBytesBE, natDigits_eq_digits 256 n (by norm_num), hdig,
        List.reverse_reverse]
    rw [hbytes]
    have hfin : List.replicate (leadingZeros bs) 0 ++ r :: rtail = bs := by
      rw [← hrest]
      exact hsplit
    rw [hfin]

theorem Decrypt_short (key data : List Nat) (h : data.length < KeySize) :
    Decrypt key data = (List.replicate KeySize 0, none, some .expectedPublicKey) := by
  unfold Decrypt
  simp only
  rw [if_pos h]

theorem Decrypt_noNonce (key data : List Nat) (h1 : KeySize ≤ data.length)
    (h2 : data.length < KeySize + NonceSize) :
    Decrypt key data = (data.take KeySize, none, some .expectedNonce) := by
  unfold Decrypt
  simp only
  rw [if_neg (by omega), if_pos (by rw [List.length_drop]; omega)]

theorem Decrypt_open (key data : List Nat) (h : KeySize + NonceSize ≤ data.length) :
    Decrypt key data =
      match boxOpen ((data.drop KeySize).drop NonceSize)
          ((data.drop KeySize).take NonceSize) (data.take KeySize) (key.take KeySize) with
      | some opened => (data.take KeySize, some opened, none)
      | none => (data.take KeySize, none, some .openFailed) := by
  unfold Decrypt
  simp only
  rw [if_neg (by omega), if_neg (by rw [List.length_drop]; omega)]

theorem Decrypt_parsed (key pub nonce sealed : List Nat)
    (hp : pub.length = KeySize) (hn : nonce.length = NonceSize) :
    Decrypt key (pub ++ (nonce ++ sealed)) =
      match boxOpen sealed nonce pub (key.take KeySize) with
      | some opened => (pub, some opened, none)
      | none => (pub, none, some .openFailed) := by
  have htake : (pub ++ (nonce ++ sealed)).take KeySize = pub := by
    rw [← hp, List.take_left]
  have hdrop : (pub ++ (nonce ++ sealed)).drop KeySize = nonce ++ sealed := by
    rw [← hp, List.drop_left]
  have htake2 : (nonce ++ sealed).take NonceSize = nonce := by
    rw [← hn, List.take_left]
  have hdrop2 : (nonce ++ sealed).drop NonceSize = sealed := by
    rw [← hn, List.drop_left]
  rw [Decrypt_open key _ (by rw [List.length_append, List.length_append, hp, hn]; omega),
    htake, hdrop, htake2, hdrop2]

theorem drop_key_Generate (sk : List Nat) (h : sk.length = KeySize) :
    (Generate sk).drop KeySize = derivePub sk := by
  rw [Generate, ← h, List.drop_left]

theorem Encrypt_Generate (skA pk nonce m : List Nat) (ha : skA.length = KeySize) :
    Encrypt (Generate skA) pk nonce m
      = derivePub skA ++ (nonce ++ boxSeal m nonce pk skA) := by
  show (Generate skA).drop KeySize
      ++ (nonce ++ boxSeal m nonce pk ((Generate skA).take KeySize)) = _
  rw [take_key_Generate skA ha, drop_key_Generate skA ha]

theorem xor_pow_ne (x k : Nat) : x ^^^ 2 ^ k ≠ x := by
  intro h
  have h2 : x ^^^ (x ^^^ 2 ^ k) = x ^^^ x := congrArg (x ^^^ ·) h
  rw [← Nat.xor_assoc, Nat.xor_self, Nat.zero_xor] at h2
  exact (Nat.two_pow_pos k).ne' h2

/-! ## Claim theorems -/

set_option maxRecDepth 100000

/-- Claim C1: for every pair of private keys A and B produced by `Generate`
and every byte payload m (including the empty payload), decrypting with B the
blob produced by `A.Encrypt(B.PublicKey(), m)` succeeds and returns A's public
key and the original plaintext m, with no error.  (The randomness drawn by
`Generate` and by the nonce generator is the explicit parameters.) -/
theorem C1_encrypt_decrypt_roundtrip (skA skB nonce m : List Nat)
    (ha : skA.length = KeySize) (hb : skB.length = KeySize)
    (hn : nonce.length = NonceSize) :
    Decrypt (Generate skB) (Encrypt (Generate skA) (publicKey (Generate skB)) nonce m)
      = (publicKey (Generate skA), some m, none) := by
  rw [publicKey_Generate skB hb, publicKey_Generate skA ha,
    Encrypt_Generate skA (derivePub skB) nonce m ha,
    Decrypt_parsed (Generate skB) (derivePub skA) nonce _ (derivePub_length skA) hn,
    take_key_Generate skB hb,
    boxOpen_boxSeal m nonce (derivePub skB) skA (derivePub skA) skB
      (sharedSecret_comm skA skB)]

/-- Witness for C1 at concrete keys, nonce and payload. -/
theorem C1_encrypt_decrypt_roundtrip_witness :
    Decrypt (Generate (List.replicate 31 0 ++ [3]))
      (Encrypt (Generate (List.replicate 31 0 ++ [1]))
        (publicKey (Generate (List.replicate 31 0 ++ [3])))
        (List.replicate 24 0) [72, 105])
      = (publicKey (Generate (List.replicate 31 0 ++ [1])), some [72, 105], none) :=
  C1_encrypt_decrypt_roundtrip (List.replicate 31 0 ++ [1]) (List.replicate 31 0 ++ [3])
    (List.replicate 24 0) [72, 105] (by decide) (by decide) (by decide)

/-- Claim C2 (divergence): for every key produced by `Generate`, parsing its
own text form back does NOT succeed: `String` encodes all 64 bytes while
`NewPrivateKey` insists on exactly 32 decoded bytes, so the round-trip always
fails with the key-length error. -/
theorem C2_text_roundtrip_fails (sk : List Nat) (h : sk.length = KeySize)
    (hby : ∀ b ∈ sk, b < 256) :
    NewPrivateKey (privateKeyString (Generate sk)) = .error .invalidKeyLength := by
  have hne : Generate sk ≠ [] := by
    intro h0
    have hl := Generate_length sk h
    rw [h0] at hl
    exact absurd hl (by decide)
  have hdec : base58Decode (base58Encode (Generate sk)) = some (Generate sk) :=
    base58_roundtrip (Generate sk) hne (Generate_bytes sk hby)
  rw [privateKeyString]
  unfold NewPrivateKey
  simp only [hdec]
  rw [if_neg (by rw [Generate_length sk h]; decide)]

/-- Witness for C2 at a concrete generated key. -/
theorem C2_text_roundtrip_fails_witness :
    NewPrivateKey (privateKeyString (Generate (List.replicate 32 0)))
      = .error .invalidKeyLength :=
  C2_text_roundtrip_fails (List.replicate 32 0) (by decide) (by decide)

/-- Claim C3: keys from `Generate` satisfy the cached-public-half invariant,
but a key produced by a successful `NewPrivateKey` parse violates it: the
parser copies the 32 decoded bytes over the secret half only and leaves the
cached public half all-zero instead of the derived public key. -/
theorem C3_cached_public_half :
    (∀ sk : List Nat, sk.length = KeySize →
        publicKey (Generate sk) = derivePub ((Generate sk).take KeySize))
    ∧ NewPrivateKey (base58Encode (List.replicate 31 0 ++ [1]))
        = .ok ((List.replicate 31 0 ++ [1]) ++ List.replicate KeySize 0)
    ∧ publicKey ((List.replicate 31 0 ++ [1]) ++ List.replicate KeySize 0)
        ≠ derivePub (((List.replicate 31 0 ++ [1]) ++ List.replicate KeySize 0).take KeySize) := by
  refine ⟨?_, by rfl, by decide⟩
  intro sk h
  rw [take_key_Generate sk h, publicKey_Generate sk h]

/-- Witness for C3's generation branch at a concrete key. -/
theorem C3_cached_public_half_witness :
    publicKey (Generate (List.replicate 32 0))
      = derivePub ((Generate (List.replicate 32 0)).take KeySize) :=
  C3_cached_public_half.1 (List.replicate 32 0) (by decide)

/-- Claim C4: `Decrypt` fails with the missing-public-key truncation error
exactly when the input is shorter than 32 bytes, and with the distinct
missing-nonce truncation error exactly when it is at least 32 but shorter
than 56 bytes; in particular a 10-byte input yields the first sub-case and a
40-byte input the second. -/
theorem C4_truncation_errors :
    (∀ key data : List Nat,
      ((Decrypt key data).2.2 = some DecryptError.expectedPublicKey ↔ data.length < 32)
      ∧ ((Decrypt key data).2.2 = some DecryptError.expectedNonce
          ↔ 32 ≤ data.length ∧ data.length < 56))
    ∧ (Decrypt (List.replicate 64 0) (List.replicate 10 0)).2.2
        = some DecryptError.expectedPublicKey
    ∧ (Decrypt (List.replicate 64 0) (List.replicate 40 0)).2.2
        = some DecryptError.expectedNonce := by
  refine ⟨?_, by decide, by decide⟩
  intro key data
  rcases Nat.lt_or_ge data.length 32 with h1 | h1
  · rw [Decrypt_short key data h1]
    exact ⟨⟨fun _ => h1, fun _ => rfl⟩,
      ⟨fun hcon => absurd hcon (by simp), fun hcon => absurd h1 (by omega)⟩⟩
  · rcases Nat.lt_or_ge data.length 56 with h2 | h2
    · rw [Decrypt_noNonce key data h1 h2]
      exact ⟨⟨fun hcon => absurd hcon (by simp), fun hcon => absurd h1 (by omega)⟩,
        ⟨fun _ => ⟨h1, h2⟩, fun _ => rfl⟩⟩
    · rw [Decrypt_open key data h2]
      cases hop : boxOpen ((data.drop KeySize).drop NonceSize)
          ((data.drop KeySize).take NonceSize) (data.take KeySize) (key.take KeySize) with
      | some opened =>
        exact ⟨⟨fun hcon => absurd hcon (by simp), fun hcon => absurd hcon (by omega)⟩,
          ⟨fun hcon => absurd hcon (by simp), fun hcon => absurd hcon.2 (by omega)⟩⟩
      | none =>
        exact ⟨⟨fun hcon => absurd hcon (by simp), fun hcon => absurd hcon (by omega)⟩,
          ⟨fun hcon => absurd hcon (by simp), fun hcon => absurd hcon.2 (by omega)⟩⟩

/-- Claim C5: the byte sequence returned by `Encrypt` is exactly the
concatenation of the sender's own 32-byte public half (bytes 32–63 of the
private key), the 24-byte nonce used for sealing, and the sealed ciphertext
produced by the authenticated-encryption primitive. -/
theorem C5_encrypt_wire_format (key peersPublicKey nonce data : List Nat)
    (h64 : key.length = 2 * KeySize) :
    Encrypt key peersPublicKey nonce data
      = publicKey key ++ (nonce ++ boxSeal data nonce peersPublicKey (key.take KeySize))
    ∧ (publicKey key).length = KeySize := by
  have hpk : publicKey key = key.drop KeySize := by
    rw [publicKey, List.take_of_length_le]
    rw [List.length_drop, h64]
    omega
  constructor
  · show key.drop KeySize
        ++ (nonce ++ boxSeal data nonce peersPublicKey (key.take KeySize)) = _
    rw [hpk]
  · rw [hpk, List.length_drop, h64]
    omega

/-- Witness for C5 at a concrete key, peer key, nonce and payload. -/
theorem C5_encrypt_wire_format_witness :
    Encrypt (List.replicate 64 5) (List.replicate 32 0) (List.replicate 24 0) [9]
      = publicKey (List.replicate 64 5)
        ++ (List.replicate 24 0
            ++ boxSeal [9] (List.replicate 24 0) (List.replicate 32 0)
                ((List.replicate 64 5).take KeySize))
    ∧ (publicKey (List.replicate 64 5)).length = KeySize :=
  C5_encrypt_wire_format (List.replicate 64 5) (List.replicate 32 0)
    (List.replicate 24 0) [9] (by decide)

/-- Claim C6: `NewPublicKey` and `NewPrivateKey` fail with the encoding error
exactly when the base-58 decode fails, and with the key-length error exactly
when the decode succeeds with a byte length different from 32; on either
failure no key is returned. -/
theorem C6_parse_error_characterization (s : String) :
    ((NewPublicKey s = .error .invalidEncoding ↔ base58Decode s = none)
      ∧ (NewPublicKey s = .error .invalidKeyLength
          ↔ ∃ bs, base58Decode s = some bs ∧ bs.length ≠ KeySize)
      ∧ (∀ e, NewPublicKey s = .error e → ∀ kk, NewPublicKey s ≠ .ok kk))
    ∧ ((NewPrivateKey s = .error .invalidEncoding ↔ base58Decode s = none)
      ∧ (NewPrivateKey s = .error .invalidKeyLength
          ↔ ∃ bs, base58Decode s = some bs ∧ bs.length ≠ KeySize)
      ∧ (∀ e, NewPrivateKey s = .error e → ∀ kk, NewPrivateKey s ≠ .ok kk)) := by
  cases hdec : base58Decode s with
  | none =>
    simp only [NewPublicKey, NewPrivateKey, hdec]
    refine ⟨⟨by simp, by simp, by simp⟩, ⟨by simp, by simp, by simp⟩⟩
  | some bs =>
    simp only [NewPublicKey, NewPrivateKey, hdec]
    by_cases hlen : bs.length = KeySize
    · simp only [if_pos hlen]
      refine ⟨⟨by simp, by simp [hlen], by simp⟩, ⟨by simp, by simp [hlen], by simp⟩⟩
    · simp only [if_neg hlen]
      refine ⟨⟨by simp, by simp [hlen], by simp⟩, ⟨by simp, by simp [hlen], by simp⟩⟩

/-- Witness for C6 at the spec's two invalid inputs: a non-base58 string and
the encoding of a 10-byte value. -/
theorem C6_parse_error_characterization_witness :
    NewPublicKey "not-valid-base58!!" = .error .invalidEncoding
    ∧ NewPublicKey (base58Encode (List.replicate 10 1)) = .error .invalidKeyLength :=
  ⟨(C6_parse_error_characterization "not-valid-base58!!").1.1.mpr (by decide),
    (C6_parse_error_characterization (base58Encode (List.replicate 10 1))).1.2.1.mpr
      ⟨List.replicate 10 1, by decide, by decide⟩⟩

theorem flip_in_sealed (pub nonce sealed : List Nat) (i k : Nat)
    (hp : pub.length = KeySize) (hn : nonce.length = NonceSize)
    (hi : i < sealed.length) :
    flipByteAt (pub ++ (nonce ++ sealed)) (KeySize + NonceSize + i) k
      = pub ++ (nonce ++ sealed.set i (sealed.getD i 0 ^^^ 2 ^ k)) := by
  rw [flipByteAt]
  have hassoc : pub ++ (nonce ++ sealed) = (pub ++ nonce) ++ sealed :=
    (List.append_assoc pub nonce sealed).symm
  have hplen : (pub ++ nonce).length = KeySize + NonceSize := by
    rw [List.length_append, hp, hn]
  have hidx : KeySize + NonceSize + i - (pub ++ nonce).length = i := by
    rw [hplen]; omega
  have hgd : (pub ++ (nonce ++ sealed)).getD (KeySize + NonceSize + i) 0
      = sealed.getD i 0 := by
    rw [hassoc, getD_append_right _ _ _ (by rw [hplen]; omega)
      (by rw [hplen]; omega), hidx]
  rw [hgd, hassoc, List.set_append, if_neg (by rw [hplen]; omega), hidx,
    List.append_assoc]

/-- Claim C7: whenever the input is structurally well-formed (at least 56
bytes) but the box-open operation rejects the sealed ciphertext, `Decrypt`
returns the authentication-failure error with a nil plaintext; in particular
(in the idealized box model) this happens when any single bit of the
sealed-ciphertext region of a valid blob is flipped, and when the blob was
encrypted for a different recipient (whose shared secret with the sender
differs from the receiver's). -/
theorem C7_authentication_failure :
    (∀ key data : List Nat, KeySize + NonceSize ≤ data.length →
      boxOpen ((data.drop KeySize).drop NonceSize) ((data.drop KeySize).take NonceSize)
          (data.take KeySize) (key.take KeySize) = none →
      Decrypt key data = (data.take KeySize, none, some .openFailed))
    ∧ (∀ (skA skB nonce m : List Nat) (i k : Nat), skA.length = KeySize →
      skB.length = KeySize → nonce.length = NonceSize →
      i < (boxSeal m nonce (derivePub skB) skA).length →
      Decrypt (Generate skB)
          (flipByteAt (Encrypt (Generate skA) (publicKey (Generate skB)) nonce m)
            (KeySize + NonceSize + i) k)
        = (derivePub skA, none, some .openFailed))
    ∧ (∀ skA skB skC nonce m : List Nat, skA.length = KeySize →
      skB.length = KeySize → skC.length = KeySize → nonce.length = NonceSize →
      sharedSecret skB (derivePub skA) ≠ sharedSecret skA (derivePub skC) →
      Decrypt (Generate skB)
          (Encrypt (Generate skA) (publicKey (Generate skC)) nonce m)
        = (derivePub skA, none, some .openFailed)) := by
  refine ⟨?_, ?_, ?_⟩
  · intro key data hlen hop
    rw [Decrypt_open key data hlen, hop]
  · intro skA skB nonce m i k ha hb hn hi
    rw [publicKey_Generate skB hb, Encrypt_Generate skA (derivePub skB) nonce m ha,
      flip_in_sealed (derivePub skA) nonce _ i k (derivePub_length skA) hn hi,
      Decrypt_parsed (Generate skB) (derivePub skA) nonce _ (derivePub_length skA) hn,
      take_key_Generate skB hb,
      boxOpen_tamper m nonce (derivePub skB) skA (derivePub skA) skB i _
        (sharedSecret_comm skA skB) hi (xor_pow_ne _ k)]
  · intro skA skB skC nonce m ha hb hc hn hne
    rw [publicKey_Generate skC hc, Encrypt_Generate skA (derivePub skC) nonce m ha,
      Decrypt_parsed (Generate skB) (derivePub skA) nonce _ (derivePub_length skA) hn,
      take_key_Generate skB hb,
      boxOpen_ne_shared m nonce (derivePub skC) skA (derivePub skA) skB hne]

/-- Witness for C7's three branches at concrete inputs: a malformed 57-byte
blob, a concrete bit flip in the sealed region, and a concrete wrong-recipient
blob. -/
theorem C7_authentication_failure_witness :
    Decrypt (List.replicate 64 0) (List.replicate 57 0)
        = ((List.replicate 57 0).take KeySize, none, some .openFailed)
    ∧ Decrypt (Generate (List.replicate 31 0 ++ [3]))
        (flipByteAt (Encrypt (Generate (List.replicate 31 0 ++ [1]))
            (publicKey (Generate (List.replicate 31 0 ++ [3])))
            (List.replicate 24 0) [72])
          (KeySize + NonceSize + 0) 0)
        = (derivePub (List.replicate 31 0 ++ [1]), none, some .openFailed)
    ∧ Decrypt (Generate (List.replicate 31 0 ++ [3]))
        (Encrypt (Generate (List.replicate 31 0 ++ [1]))
          (publicKey (Generate (List.replicate 31 0 ++ [2])))
          (List.replicate 24 0) [72])
        = (derivePub (List.replicate 31 0 ++ [1]), none, some .openFailed) :=
  ⟨C7_authentication_failure.1 (List.replicate 64 0) (List.replicate 57 0)
      (by decide) (by decide),
    C7_authentication_failure.2.1 (List.replicate 31 0 ++ [1]) (List.replicate 31 0 ++ [3])
      (List.replicate 24 0) [72] 0 0 (by decide) (by decide) (by decide) (by decide),
    C7_authentication_failure.2.2 (List.replicate 31 0 ++ [1]) (List.replicate 31 0 ++ [3])
      (List.replicate 31 0 ++ [2]) (List.replicate 24 0) [72]
      (by decide) (by decide) (by decide) (by decide) (by decide)⟩

/-- Claim C8: `Decrypt` is deterministic — identical key and identical input
yield the identical result triple. -/
theorem C8_decrypt_deterministic (key d1 d2 : List Nat) (h : d1 = d2) :
    Decrypt key d1 = Decrypt key d2 := by
  rw [h]

/-- Witness for C8 at a concrete key and input. -/
theorem C8_decrypt_deterministic_witness :
    Decrypt (List.replicate 64 0) [1, 2, 3] = Decrypt (List.replicate 64 0) [1, 2, 3] :=
  C8_decrypt_deterministic (List.replicate 64 0) [1, 2, 3] [1, 2, 3] rfl

/-- Claim C9: for every 32-byte public key, parsing its text form back
succeeds and returns the same key. -/
theorem C9_public_text_roundtrip (p : List Nat) (hlen : p.length = KeySize)
    (hby : ∀ b ∈ p, b < 256) :
    NewPublicKey (publicKeyString p) = .ok p := by
  have hne : p ≠ [] := by
    intro h0
    rw [h0] at hlen
    exact absurd hlen (by decide)
  have hdec : base58Decode (base58Encode p) = some p := base58_roundtrip p hne hby
  rw [publicKeyString]
  unfold NewPublicKey
  simp only [hdec]
  rw [if_pos hlen]

/-- Witness for C9 at a concrete public key. -/
theorem C9_public_text_roundtrip_witness :
    NewPublicKey (publicKeyString (List.replicate 31 0 ++ [1]))
      = .ok (List.replicate 31 0 ++ [1]) :=
  C9_public_text_roundtrip (List.replicate 31 0 ++ [1]) (by decide) (by decide)

/-- Claim C10: on the missing-nonce failure (32 ≤ length < 56) `Decrypt`
returns the sender public key parsed from the first 32 bytes of the input
alongside the error; on the missing-public-key failure (length < 32) it
returns the all-zero public key; in both cases the plaintext is nil. -/
theorem C10_failure_return_values :
    (∀ key data : List Nat, data.length < KeySize →
        Decrypt key data = (List.replicate KeySize 0, none, some .expectedPublicKey))
    ∧ (∀ key data : List Nat, KeySize ≤ data.length → data.length < KeySize + NonceSize →
        Decrypt key data = (data.take KeySize, none, some .expectedNonce)) :=
  ⟨Decrypt_short, Decrypt_noNonce⟩

/-- Witness for C10 at the spec's 10-byte and 40-byte inputs. -/
theorem C10_failure_return_values_witness :
    Decrypt (List.replicate 64 0) (List.replicate 10 0)
        = (List.replicate KeySize 0, none, some .expectedPublicKey)
    ∧ Decrypt (List.replicate 64 0) (List.replicate 40 0)
        = ((List.replicate 40 0).take KeySize, none, some .expectedNonce) :=
  ⟨C10_failure_return_values.1 (List.replicate 64 0) (List.replicate 10 0) (by decide),
    C10_failure_return_values.2 (List.replicate 64 0) (List.replicate 40 0)
      (by decide) (by decide)⟩

end Crypt
